import Mathlib

/-!
Verification of the wine-store static-site generator core (`main.py`).

The Python code is shallowly embedded: a spreadsheet cell / dictionary value
is a `PyVal` (Python `None` for an absent key, `NaN` for a blank cell, a
string, or a number), a raw row is a `RawRecord`, and operations that can
raise a Python exception (`str > int`, `.strip()` on a non-string) return
`Except Unit`.  Python equality (`==`) is `pyEq`: `None == None` is true
while `NaN == NaN` is false, exactly as in CPython.
-/

set_option autoImplicit false

namespace WineStore

/-- Model of a Python scalar as it appears in a record dictionary:
`none` is Python `None` (an absent key via `dict.get`), `nan` is a pandas
`NaN` cell, and otherwise the value is a string or a number. -/
inductive PyVal where
  | none : PyVal
  | nan : PyVal
  | str : String → PyVal
  | num : Int → PyVal
deriving DecidableEq, Repr

/-- Model of `pd.notna`: false exactly on `None` and `NaN`. -/
def pdNotna : PyVal → Bool
  | .none => false
  | .nan => false
  | _ => true

/-- Model of Python `==` on scalars: `None == None` is `True`,
`NaN == NaN` is `False`, values of different kinds are unequal. -/
def pyEq : PyVal → PyVal → Bool
  | .none, .none => true
  | .str s, .str t => s == t
  | .num a, .num b => a == b
  | _, _ => false

/-- Model of `d.get(key, dflt)`: the stored value when the key is present,
the default otherwise. -/
def pyGetD (v dflt : PyVal) : PyVal :=
  match v with
  | .none => dflt
  | x => x

/-- Translation of `clean_data` from `main.py`: replace a NaN value (or
`None`) by the empty string, keep everything else. -/
def clean_data (value : PyVal) : PyVal :=
  if pdNotna value then value else .str ""

/-- One raw spreadsheet row, as the dictionary produced by
`load_wine_data_from_excel`.  Each field holds the result of
`wine.get(column)`; `PyVal.none` means the key is absent. -/
structure RawRecord where
  name : PyVal
  grape : PyVal
  price : PyVal
  image : PyVal
  category : PyVal
deriving DecidableEq, Repr

/-- Model of the empty dictionary `{}` that `main` substitutes when no
cheapest wine is found: every `get` returns `None`. -/
def emptyRecord : RawRecord :=
  ⟨.none, .none, .none, .none, .none⟩

/-- Numeric value of a price already known to be a number (the key lookup
`wine[Цена]` inside `min`); the default `0` is never reached on the
filtered list. -/
def numPrice : PyVal → Int
  | .num n => n
  | _ => 0

/-- Model of the filter condition `pd.notna(wine.get(Цена)) and
wine.get(Цена) > 0`.  Comparing a string with `0` raises `TypeError` in
Python, modelled as `Except.error`. -/
def priceCheck : PyVal → Except Unit Bool
  | .none => .ok false
  | .nan => .ok false
  | .num n => .ok (decide (0 < n))
  | .str _ => .error ()

/-- Pure version of the validity test, defined on records whose price is
not a string: present and strictly positive. -/
def validB (w : RawRecord) : Bool :=
  match w.price with
  | .num n => decide (0 < n)
  | _ => false

/-- Price field is not a Python string (the input contract of the
cheapest-item finder: price is numeric or absent). -/
def priceNotStr (w : RawRecord) : Bool :=
  match w.price with
  | .str _ => false
  | _ => true

/-- The list comprehension of `find_cheapest_wine`: keep records whose
price passes `priceCheck`, propagating a raised `TypeError` (the filter
condition is evaluated left to right, so the first raise aborts). -/
def filterValid : List RawRecord → Except Unit (List RawRecord)
  | [] => .ok []
  | w :: ws =>
    match priceCheck w.price with
    | .error e => .error e
    | .ok b =>
      match filterValid ws with
      | .error e => .error e
      | .ok rest => .ok (if b then w :: rest else rest)

/-- Model of Python `min(valid_wines, key=lambda wine: wine[Цена])`:
scan left to right, replacing the current best only on a strictly smaller
key, so the first minimal element wins. -/
def pyMin (best : RawRecord) : List RawRecord → RawRecord
  | [] => best
  | x :: xs => pyMin (if numPrice x.price < numPrice best.price then x else best) xs

/-- Translation of `find_cheapest_wine` from `main.py`. -/
def find_cheapest_wine (wines_data : List RawRecord) :
    Except Unit (Option RawRecord) :=
  match filterValid wines_data with
  | .error e => .error e
  | .ok valid_wines =>
    match valid_wines with
    | [] => .ok Option.none
    | w :: ws => .ok (Option.some (pyMin w ws))

/-- A sanitized output row, the dictionary built by `process_wine_data`
(fields Название, Сорт, Цена, Картинка, Акция). -/
structure ProcessedWine where
  name : PyVal
  grape : PyVal
  price : PyVal
  image : PyVal
  isPromotion : Bool
deriving DecidableEq, Repr

/-- Translation of `process_wine_data` from `main.py`: the promotion flag
compares name and price with Python `==` against the cheapest record, and
the fields are sanitized (`clean_data` for text, NaN price becomes
`None`). -/
def process_wine_data (wine_data cheapest_wine : RawRecord) : ProcessedWine :=
  let is_cheapest :=
    pyEq wine_data.name cheapest_wine.name && pyEq wine_data.price cheapest_wine.price
  { name := clean_data (pyGetD wine_data.name (.str ""))
    grape := clean_data (pyGetD wine_data.grape (.str ""))
    price := if pdNotna wine_data.price then wine_data.price else .none
    image := clean_data (pyGetD wine_data.image (.str ""))
    isPromotion := is_cheapest }

/-- Characters stripped by Python `str.strip()` from both ends. -/
def wsChar (c : Char) : Bool :=
  c.isWhitespace

/-- Strip leading and trailing whitespace from a character list. -/
def stripChars (l : List Char) : List Char :=
  ((l.dropWhile wsChar).reverse.dropWhile wsChar).reverse

/-- Model of Python `str.strip()` on a string. -/
def pyStripStr (s : String) : String :=
  ⟨stripChars s.data⟩

/-- Model of `value.strip()` on an arbitrary scalar: only strings have a
`strip` method, anything else raises `AttributeError`. -/
def pyStrip : PyVal → Except Unit String
  | .str s => .ok (pyStripStr s)
  | _ => .error ()

/-- Association list from category name to its rows, in insertion order:
the model of the `defaultdict(list)` of `group_wines_by_category`. -/
abbrev Groups : Type :=
  List (String × List ProcessedWine)

/-- Model of `grouped_wines[category].append(processed_wine)` on a
`defaultdict`: extend the entry when the key exists, otherwise create the
key at the end (Python dicts keep insertion order). -/
def appendToGroup (groups : Groups) (k : String) (w : ProcessedWine) : Groups :=
  match groups with
  | [] => [(k, [w])]
  | (k', ws) :: rest =>
    if k' = k then (k', ws ++ [w]) :: rest else (k', ws) :: appendToGroup rest k w

/-- Rows stored under a key (empty list when the key is absent). -/
def groupsGet (groups : Groups) (k : String) : List ProcessedWine :=
  match groups with
  | [] => []
  | (k', ws) :: rest => if k' = k then ws else groupsGet rest k

/-- The category expression of the grouping loop:
`clean_data(wine.get(Категория, )).strip()`, which raises when the
category cell is numeric. -/
def categoryOf (wine : RawRecord) : Except Unit String :=
  pyStrip (clean_data (pyGetD wine.category (.str "")))

/-- The loop of `group_wines_by_category`, with the `defaultdict`
accumulator made explicit; `continue` on a blank trimmed category. -/
def groupAux (cheapest_wine : RawRecord) (acc : Groups) :
    List RawRecord → Except Unit Groups
  | [] => .ok acc
  | wine :: rest =>
    match categoryOf wine with
    | .error e => .error e
    | .ok category =>
      groupAux cheapest_wine
        (if category = "" then acc
         else appendToGroup acc category (process_wine_data wine cheapest_wine))
        rest

/-- Translation of `group_wines_by_category` from `main.py`. -/
def group_wines_by_category (wines_data : List RawRecord)
    (cheapest_wine : RawRecord) : Except Unit Groups :=
  groupAux cheapest_wine [] wines_data

/-- The data pipeline of `main`: find the cheapest wine, fall back to the
empty dictionary when there is none, then group by category. -/
def pipeline (wines_list : List RawRecord) : Except Unit Groups :=
  match find_cheapest_wine wines_list with
  | .error e => .error e
  | .ok cheapest => group_wines_by_category wines_list (cheapest.getD emptyRecord)

/-- Translation of `get_year_word` from `main.py`. -/
def get_year_word (age : Nat) : String :=
  let last_two_digits := age % 100
  if 11 ≤ last_two_digits ∧ last_two_digits ≤ 19 then "лет"
  else
    let last_digit := age % 10
    if last_digit = 1 then "год"
    else if 2 ≤ last_digit ∧ last_digit ≤ 4 then "года"
    else "лет"

/-- Modelled from the spec, section 4.4: the three-way plural rule for
`wordForm`, used as the reference the code is compared against. -/
def wordFormSpec (age : Nat) : String :=
  if 11 ≤ age % 100 ∧ age % 100 ≤ 19 then "лет"
  else if age % 10 = 1 then "год"
  else if 2 ≤ age % 10 ∧ age % 10 ≤ 4 then "года"
  else "лет"

/-- Trimmed category of a record, defined on records whose category cell
is not numeric: the stripped string for a string cell, `""` for an absent
or NaN cell (which `clean_data` turns into `""`). -/
def trimCat (w : RawRecord) : String :=
  match w.category with
  | .str s => pyStripStr s
  | _ => ""

/-- Category cell is not a number (on a numeric cell `.strip()` raises,
so `group_wines_by_category` only succeeds when this holds). -/
def catNotNum (w : RawRecord) : Bool :=
  match w.category with
  | .num _ => false
  | _ => true

/-- Total version of the grouping loop, equal to `groupAux` whenever no
category cell is numeric. -/
def groupTotal (cheapest : RawRecord) (acc : Groups) : List RawRecord → Groups
  | [] => acc
  | w :: ws =>
    groupTotal cheapest
      (if trimCat w = "" then acc
       else appendToGroup acc (trimCat w) (process_wine_data w cheapest))
      ws

/-- First-seen order of the non-blank trimmed categories of a record
list, given the keys already present. -/
def seenKeys (seen : List String) : List RawRecord → List String
  | [] => []
  | w :: ws =>
    if trimCat w = "" ∨ trimCat w ∈ seen then seenKeys seen ws
    else trimCat w :: seenKeys (trimCat w :: seen) ws

/-- Number of records across all groups whose promotion flag is set. -/
def countFlagged (g : Groups) : Nat :=
  (g.map (fun p => p.2.countP (fun pw => pw.isPromotion))).sum

/-- The promotion comparison of `process_wine_data`: name and price both
Python-equal to the cheapest record. -/
def matchesB (w cheapest : RawRecord) : Bool :=
  pyEq w.name cheapest.name && pyEq w.price cheapest.price

/-- String has no leading and no trailing whitespace character. -/
def noEdgeWs (s : String) : Bool :=
  (match s.data.head? with
   | some c => !wsChar c
   | none => true) &&
  (match s.data.getLast? with
   | some c => !wsChar c
   | none => true)

/-- Sanitized-price invariant claimed by the spec: positive number or
absent. -/
def sanitizedPriceOk (pw : ProcessedWine) : Prop :=
  (∃ n : Int, pw.price = .num n ∧ 0 < n) ∨ pw.price = .none

/-- Row A of the end-to-end scenario of the spec (price 100, Red). -/
def wineA : RawRecord := ⟨.str "A", .none, .num 100, .none, .str "Red"⟩

/-- Row B of the end-to-end scenario of the spec (price 50, Red). -/
def wineB : RawRecord := ⟨.str "B", .none, .num 50, .none, .str "Red"⟩

/-- Row C of the end-to-end scenario of the spec (price 50, White). -/
def wineC : RawRecord := ⟨.str "C", .none, .num 50, .none, .str "White"⟩

/-- Input of the end-to-end scenario of the spec. -/
def abcWines : List RawRecord := [wineA, wineB, wineC]

/-- Expected grouped output of the end-to-end scenario: only B flagged. -/
def abcGroups : Groups :=
  [("Red", [⟨.str "A", .str "", .num 100, .str "", false⟩,
            ⟨.str "B", .str "", .num 50, .str "", true⟩]),
   ("White", [⟨.str "C", .str "", .num 50, .str "", false⟩])]

/-- A record whose Название and Цена keys are both absent (a sheet
missing those columns) with a non-blank category. -/
def noPriceRecord : RawRecord := ⟨.none, .none, .none, .none, .str "Red"⟩

/-- A record with price 0 and a non-blank category. -/
def zeroPriceRecord : RawRecord := ⟨.str "Z", .none, .num 0, .none, .str "Red"⟩

/-- A record whose Картинка key is absent (the missing-Image scenario of
the spec). -/
def missingImageRecord : RawRecord :=
  ⟨.str "N", .str "G", .num 5, .none, .str "Red"⟩

/-- First of two records sharing the minimum price. -/
def tieX : RawRecord := ⟨.str "X", .none, .num 50, .none, .str "Red"⟩

/-- Second of two records sharing the minimum price. -/
def tieY : RawRecord := ⟨.str "Y", .none, .num 50, .none, .str "Red"⟩

/-- Tie scenario input: two distinct records with the same price. -/
def tieWines : List RawRecord := [tieX, tieY]

/-- Records with prices 0, -5 and 10 (the invalid-price scenario of the
spec). -/
def invalidPriceWines : List RawRecord :=
  [⟨.none, .none, .num 0, .none, .none⟩,
   ⟨.none, .none, .num (-5), .none, .none⟩,
   ⟨.str "Z", .none, .num 10, .none, .none⟩]

/-- The price-10 record of `invalidPriceWines`. -/
def tenRecord : RawRecord := ⟨.str "Z", .none, .num 10, .none, .none⟩

/-- Two rows with the same name and the same (minimum) price in two
categories. -/
def dupWines : List RawRecord :=
  [⟨.str "A", .none, .num 50, .none, .str "Red"⟩,
   ⟨.str "A", .none, .num 50, .none, .str "White"⟩]

/-- Grouped output of `dupWines`: both rows carry the promotion flag. -/
def dupGroups : Groups :=
  [("Red", [⟨.str "A", .str "", .num 50, .str "", true⟩]),
   ("White", [⟨.str "A", .str "", .num 50, .str "", true⟩])]

/-- Blank-category and trailing-space-category rows of the grouping
scenario of the spec. -/
def trimWines : List RawRecord :=
  [⟨.str "X", .none, .num 10, .none, .str "  "⟩,
   ⟨.str "Y", .none, .num 20, .none, .str "Red "⟩]

/-- The single group of the `trimWines` output: key `"Red"` with the
processed trailing-space-category row. -/
def trimPair : String × List ProcessedWine :=
  ("Red", [⟨.str "Y", .str "", .num 20, .str "", false⟩])

/-- Grouped output of `trimWines`: the blank-category row is dropped and
the other is keyed by the trimmed category. -/
def trimGroups : Groups :=
  [trimPair]

/-- C4: for every non-negative age, `get_year_word` follows the
three-way rule of the spec (form C for `age % 100` in 11..19, else form A
for last digit 1, else form B for last digit 2..4, else form C), and the
concrete values of the spec hold. -/
theorem get_year_word_matches_spec :
    (∀ age : Nat, get_year_word age = wordFormSpec age) ∧
    get_year_word 1 = "год" ∧ get_year_word 2 = "года" ∧
    get_year_word 5 = "лет" ∧ get_year_word 11 = "лет" ∧
    get_year_word 21 = "год" ∧ get_year_word 105 = "лет" :=
  ⟨fun _ => rfl, rfl, rfl, rfl, rfl, rfl, rfl⟩

/-- C10: `get_year_word` depends only on the age modulo 100: it is
invariant under adding 100 and factors through `age % 100`. -/
theorem get_year_word_mod_100 :
    ∀ age : Nat, get_year_word (age + 100) = get_year_word age ∧
      get_year_word age = get_year_word (age % 100) := by
  intro age
  have h1 : (age + 100) % 100 = age % 100 := by omega
  have h2 : (age + 100) % 10 = age % 10 := by omega
  have h3 : age % 100 % 100 = age % 100 := by omega
  have h4 : age % 100 % 10 = age % 10 := by omega
  constructor
  · simp only [get_year_word, h1, h2]
  · simp only [get_year_word, h3, h4]

/-- C2: the promotion flag of a processed record is true exactly when
both its name and its price are Python-equal to the cheapest record's,
and on the A/B/C scenario the pipeline flags only B (C keeps the same
price but a different name). -/
theorem promotion_iff_name_and_price :
    (∀ w c : RawRecord,
      (process_wine_data w c).isPromotion =
        (pyEq w.name c.name && pyEq w.price c.price)) ∧
    pipeline abcWines = .ok abcGroups :=
  ⟨fun _ _ => rfl, rfl⟩

/-- C6 (code bug): on a record whose Название and Цена keys are absent,
with no valid price anywhere, `find_cheapest_wine` returns no cheapest
item, yet the pipeline still flags the record as promotional, because
`None == None` is true in Python when comparing against the empty
fallback dictionary. -/
theorem promotion_flag_without_cheapest :
    find_cheapest_wine [noPriceRecord] = .ok Option.none ∧
    pipeline [noPriceRecord] =
      .ok [("Red", [⟨.str "", .str "", .none, .str "", true⟩])] :=
  ⟨rfl, rfl⟩

/-- C5 (counterexample): a raw record with price 0 is sanitized to a
record whose price field is the number 0 — present and not positive — so
the claimed positive-or-absent price invariant fails. -/
theorem sanitize_price_zero_kept :
    (process_wine_data zeroPriceRecord emptyRecord).price = .num 0 ∧
    ¬ sanitizedPriceOk (process_wine_data zeroPriceRecord emptyRecord) := by
  have hp : (process_wine_data zeroPriceRecord emptyRecord).price = .num 0 := rfl
  refine ⟨hp, ?_⟩
  rintro (⟨n, hn, hpos⟩ | hnone)
  · rw [hp] at hn
    injection hn with h0
    omega
  · rw [hp] at hnone
    exact PyVal.noConfusion hnone

/-- C5 (amended): for a record whose price is not a string, sanitization
turns a missing or NaN text field (name, grape, image) into the empty
string, turns a missing or NaN price into `None`, keeps a numeric price
unchanged (zero and negative included), and the sanitized price is always
a number or absent — never a string. -/
theorem sanitize_fields_amended (w c : RawRecord)
    (h : priceNotStr w = true) :
    ((w.name = .none ∨ w.name = .nan) →
      (process_wine_data w c).name = .str "") ∧
    ((w.grape = .none ∨ w.grape = .nan) →
      (process_wine_data w c).grape = .str "") ∧
    ((w.image = .none ∨ w.image = .nan) →
      (process_wine_data w c).image = .str "") ∧
    ((w.price = .none ∨ w.price = .nan) →
      (process_wine_data w c).price = .none) ∧
    (∀ n : Int, w.price = .num n → (process_wine_data w c).price = .num n) ∧
    ((∃ n : Int, (process_wine_data w c).price = .num n) ∨
      (process_wine_data w c).price = .none) := by
  refine ⟨?_, ?_, ?_, ?_, ?_, ?_⟩
  · rintro (h1 | h1) <;>
      simp [process_wine_data, pyGetD, clean_data, pdNotna, h1]
  · rintro (h1 | h1) <;>
      simp [process_wine_data, pyGetD, clean_data, pdNotna, h1]
  · rintro (h1 | h1) <;>
      simp [process_wine_data, pyGetD, clean_data, pdNotna, h1]
  · rintro (h1 | h1) <;>
      simp [process_wine_data, pyGetD, clean_data, pdNotna, h1]
  · intro n h1
    simp [process_wine_data, pyGetD, clean_data, pdNotna, h1]
  · unfold priceNotStr at h
    cases h1 : w.price with
    | none => exact Or.inr (by simp [process_wine_data, h1, pdNotna])
    | nan => exact Or.inr (by simp [process_wine_data, h1, pdNotna])
    | str s =>
      rw [h1] at h
      exact Bool.noConfusion h
    | num n => exact Or.inl ⟨n, by simp [process_wine_data, h1, pdNotna]⟩

/-- C5 (witness): the missing-Image row sanitizes to an empty-string
image, by the amended sanitization theorem at a concrete record. -/
theorem sanitize_fields_amended_witness :
    (process_wine_data missingImageRecord emptyRecord).image = .str "" :=
  (sanitize_fields_amended missingImageRecord emptyRecord
    (by decide)).2.2.1 (Or.inl rfl)

/-- Python `min` keeps a running best and replaces it only on a strictly
smaller key, so the result's key is a lower bound of the initial best and
of every scanned element. -/
theorem pyMin_le (ws : List RawRecord) :
    ∀ best : RawRecord,
      numPrice (pyMin best ws).price ≤ numPrice best.price ∧
      ∀ x ∈ ws, numPrice (pyMin best ws).price ≤ numPrice x.price := by
  induction ws with
  | nil =>
    intro best
    exact ⟨le_refl _, by intro x hx; cases hx⟩
  | cons a l ih =>
    intro best
    by_cases hlt : numPrice a.price < numPrice best.price
    · have hstep : pyMin best (a :: l) = pyMin a l := by
        simp [pyMin, hlt]
      obtain ⟨h1, h2⟩ := ih a
      refine ⟨?_, ?_⟩
      · rw [hstep]; exact le_of_lt (lt_of_le_of_lt h1 hlt)
      · intro x hx
        rw [hstep]
        rcases List.mem_cons.mp hx with hx | hx
        · rw [hx]; exact h1
        · exact h2 x hx
    · have hstep : pyMin best (a :: l) = pyMin best l := by
        simp [pyMin, hlt]
      obtain ⟨h1, h2⟩ := ih best
      refine ⟨?_, ?_⟩
      · rw [hstep]; exact h1
      · intro x hx
        rw [hstep]
        rcases List.mem_cons.mp hx with hx | hx
        · rw [hx]; exact le_trans h1 (le_of_not_lt hlt)
        · exact h2 x hx

/-- The result of the running-minimum scan is one of the scanned
records. -/
theorem pyMin_mem (ws : List RawRecord) :
    ∀ best : RawRecord, pyMin best ws ∈ best :: ws := by
  induction ws with
  | nil => intro best; simp [pyMin]
  | cons a l ih =>
    intro best
    by_cases hlt : numPrice a.price < numPrice best.price
    · have hstep : pyMin best (a :: l) = pyMin a l := by simp [pyMin, hlt]
      rw [hstep]
      rcases List.mem_cons.mp (ih a) with hm | hm
      · exact List.mem_cons.mpr (Or.inr (List.mem_cons.mpr (Or.inl hm)))
      · exact List.mem_cons.mpr (Or.inr (List.mem_cons.mpr (Or.inr hm)))
    · have hstep : pyMin best (a :: l) = pyMin best l := by simp [pyMin, hlt]
      rw [hstep]
      rcases List.mem_cons.mp (ih best) with hm | hm
      · exact List.mem_cons.mpr (Or.inl hm)
      · exact List.mem_cons.mpr (Or.inr (List.mem_cons.mpr (Or.inr hm)))

/-- Stability of the running minimum: the result is the first scanned
record whose key equals the minimum key. -/
theorem pyMin_find (ws : List RawRecord) :
    ∀ best : RawRecord,
      (best :: ws).find?
        (fun x => numPrice x.price == numPrice (pyMin best ws).price) =
      some (pyMin best ws) := by
  induction ws with
  | nil =>
    intro best
    simp [pyMin]
  | cons a l ih =>
    intro best
    by_cases hlt : numPrice a.price < numPrice best.price
    · have hstep : pyMin best (a :: l) = pyMin a l := by simp [pyMin, hlt]
      rw [hstep]
      have hm_le : numPrice (pyMin a l).price ≤ numPrice a.price :=
        (pyMin_le l a).1
      have hbest : (numPrice best.price == numPrice (pyMin a l).price) = false := by
        simp only [beq_iff_eq, beq_eq_false_iff_ne, ne_eq]
        intro he
        exact absurd (lt_of_le_of_lt hm_le hlt) (by rw [← he]; exact lt_irrefl _)
      rw [List.find?_cons_of_neg _ (by simp [hbest])]
      exact ih a
    · have hstep : pyMin best (a :: l) = pyMin best l := by simp [pyMin, hlt]
      rw [hstep]
      have hm_le : numPrice (pyMin best l).price ≤ numPrice best.price :=
        (pyMin_le l best).1
      by_cases hp : numPrice best.price = numPrice (pyMin best l).price
      · have hfind := ih best
        rw [List.find?_cons_of_pos _ (by simp [hp])] at hfind
        have hbm : best = pyMin best l := Option.some.inj hfind
        rw [List.find?_cons_of_pos _ (by simp [hp])]
        rw [← hbm]
      · have hax : (numPrice a.price == numPrice (pyMin best l).price) = false := by
          simp only [beq_eq_false_iff_ne, ne_eq]
          intro he
          have hba : numPrice best.price ≤ numPrice a.price := le_of_not_lt hlt
          have : numPrice best.price = numPrice (pyMin best l).price :=
            le_antisymm (he ▸ hba) hm_le
          exact hp this
        have hfind := ih best
        rw [List.find?_cons_of_neg _ (by simp [hp])] at hfind
        rw [List.find?_cons_of_neg _ (by simp [hp]),
          List.find?_cons_of_neg _ (by simp [hax])]
        exact hfind

/-- When a record's key passes `priceCheck` without raising, the boolean
agrees with the pure validity test. -/
theorem priceCheck_ok_eq (w : RawRecord) (b : Bool)
    (h : priceCheck w.price = .ok b) : b = validB w := by
  unfold validB
  cases hp : w.price <;> rw [hp] at h
  · exact (Except.ok.inj h).symm
  · exact (Except.ok.inj h).symm
  · exact Except.noConfusion h
  · exact (Except.ok.inj h).symm

/-- On a record with a non-string price, `priceCheck` does not raise and
agrees with the pure validity test. -/
theorem priceCheck_of_notStr (w : RawRecord) (h : priceNotStr w = true) :
    priceCheck w.price = .ok (validB w) := by
  unfold priceNotStr at h
  unfold validB
  cases hp : w.price <;> rw [hp] at h
  · rfl
  · rfl
  · exact absurd h (by simp)
  · rfl

/-- On a list with no string price, the comprehension filter of
`find_cheapest_wine` does not raise and equals a pure `List.filter`. -/
theorem filterValid_ok_of_notStr (ws : List RawRecord)
    (h : ∀ w ∈ ws, priceNotStr w = true) :
    filterValid ws = .ok (ws.filter validB) := by
  induction ws with
  | nil => rfl
  | cons a l ih =>
    have ha : priceNotStr a = true := h a (List.mem_cons_self a l)
    have hl := ih fun w hw => h w (List.mem_cons_of_mem a hw)
    unfold filterValid
    rw [priceCheck_of_notStr a ha, hl]
    show Except.ok (if validB a then a :: l.filter validB else l.filter validB) = _
    rw [List.filter_cons]

/-- When the comprehension filter of `find_cheapest_wine` returns a list,
that list is the pure filter of the valid records. -/
theorem filterValid_ok_eq (ws : List RawRecord) (l : List RawRecord)
    (h : filterValid ws = .ok l) : l = ws.filter validB := by
  induction ws generalizing l with
  | nil =>
    rw [← Except.ok.inj h]
    rfl
  | cons a t ih =>
    unfold filterValid at h
    cases hc : priceCheck a.price with
    | error e =>
      rw [hc] at h
      exact Except.noConfusion h
    | ok b =>
      rw [hc] at h
      cases ht : filterValid t with
      | error e =>
        rw [ht] at h
        exact Except.noConfusion h
      | ok rest =>
        rw [ht] at h
        have hl : l = if b then a :: rest else rest := (Except.ok.inj h).symm
        have hrest := ih rest ht
        have hb := priceCheck_ok_eq a b hc
        simp [hl, hrest, hb, List.filter_cons]

/-- C7: on any input whose prices are numeric or absent, the cheapest
finder raises no error; records with an absent, zero or negative price
are ignored, and when no record survives the filter the result is
`None` rather than a failure. -/
theorem find_cheapest_wine_no_raise (wines : List RawRecord)
    (h : ∀ w ∈ wines, priceNotStr w = true) :
    find_cheapest_wine wines =
      .ok (match wines.filter validB with
        | [] => Option.none
        | v :: vs => Option.some (pyMin v vs)) := by
  unfold find_cheapest_wine
  rw [filterValid_ok_of_notStr wines h]
  cases wines.filter validB <;> rfl

/-- C7 (witness): on records with prices 0, -5 and 10 the finder returns
the price-10 record. -/
theorem find_cheapest_wine_no_raise_witness :
    find_cheapest_wine invalidPriceWines = .ok (Option.some tenRecord) :=
  find_cheapest_wine_no_raise invalidPriceWines (by decide)

/-- C1: whenever `find_cheapest_wine` returns a record, that record is a
valid-priced input record, its price is minimal among the valid-priced
records, and it is the first record in input order achieving that
minimum among them (stable tie-break). -/
theorem find_cheapest_wine_min_stable (wines : List RawRecord)
    (w : RawRecord) (h : find_cheapest_wine wines = .ok (Option.some w)) :
    (w ∈ wines ∧ validB w = true) ∧
    (∀ x ∈ wines, validB x = true →
      numPrice w.price ≤ numPrice x.price) ∧
    wines.find? (fun x => validB x &&
      (numPrice x.price == numPrice w.price)) = some w := by
  unfold find_cheapest_wine at h
  cases hv : filterValid wines with
  | error e =>
    rw [hv] at h
    exact Except.noConfusion h
  | ok valid =>
    rw [hv] at h
    have hval : valid = wines.filter validB := filterValid_ok_eq wines valid hv
    cases hvl : valid with
    | nil =>
      rw [hvl] at h
      exact Option.noConfusion (Except.ok.inj h)
    | cons v vs =>
      rw [hvl] at h
      have hw : w = pyMin v vs := (Option.some.inj (Except.ok.inj h)).symm
      have hmem : w ∈ v :: vs := hw ▸ pyMin_mem vs v
      have hmemf : w ∈ wines.filter validB := by
        rw [← hval, hvl]; exact hmem
      refine ⟨⟨List.mem_of_mem_filter hmemf, List.of_mem_filter hmemf⟩, ?_, ?_⟩
      · intro x hx hvx
        have hxf : x ∈ valid := by
          rw [hval]
          exact List.mem_filter.mpr ⟨hx, hvx⟩
        rw [hvl] at hxf
        obtain ⟨h1, h2⟩ := pyMin_le vs v
        rcases List.mem_cons.mp hxf with hx1 | hx1
        · rw [hw, hx1]; exact h1
        · rw [hw]; exact h2 x hx1
      · have hfind := pyMin_find vs v
        rw [← hw] at hfind
        have hff : (wines.filter validB).find?
            (fun x => numPrice x.price == numPrice w.price) = some w := by
          rw [← hval, hvl]
          exact hfind
        rw [List.find?_filter] at hff
        have hcong : (fun x => decide (validB x = true ∧
            (numPrice x.price == numPrice w.price) = true)) =
            (fun x => validB x && (numPrice x.price == numPrice w.price)) := by
          funext x
          cases validB x <;> cases hbe : numPrice x.price == numPrice w.price <;>
            simp [hbe]
        rw [← hcong]
        exact hff

/-- C1 (witness): of the two price-50 records `tieX` and `tieY`, the
finder returns `tieX`, the first in input order, and the conclusions of
the stability theorem hold at that input. -/
theorem find_cheapest_wine_min_stable_witness :
    (tieX ∈ tieWines ∧ validB tieX = true) ∧
    (∀ x ∈ tieWines, validB x = true →
      numPrice tieX.price ≤ numPrice x.price) ∧
    tieWines.find? (fun x => validB x &&
      (numPrice x.price == numPrice tieX.price)) = some tieX :=
  find_cheapest_wine_min_stable tieWines tieX rfl

/-- Stripping the empty string yields the empty string. -/
theorem pyStripStr_empty : pyStripStr "" = "" :=
  rfl

/-- The trimmed category is always the strip of some string (an absent or
NaN or numeric cell trims to the strip of the empty string). -/
theorem trimCat_strip (w : RawRecord) :
    ∃ s : String, trimCat w = pyStripStr s := by
  unfold trimCat
  cases w.category with
  | none => exact ⟨"", pyStripStr_empty.symm⟩
  | nan => exact ⟨"", pyStripStr_empty.symm⟩
  | str s => exact ⟨s, rfl⟩
  | num n => exact ⟨"", pyStripStr_empty.symm⟩

/-- On a record whose category cell is not numeric, the category
expression of the loop does not raise and produces the trimmed
category. -/
theorem categoryOf_eq_ok (w : RawRecord) (h : catNotNum w = true) :
    categoryOf w = .ok (trimCat w) := by
  unfold catNotNum at h
  unfold categoryOf trimCat
  cases hc : w.category
  · exact congrArg Except.ok pyStripStr_empty
  · exact congrArg Except.ok pyStripStr_empty
  · rfl
  · rw [hc] at h
    exact Bool.noConfusion h

/-- When the category expression of the loop returns a string, the
category cell was not numeric and the string is the trimmed category. -/
theorem categoryOf_ok_inv (w : RawRecord) (c : String)
    (h : categoryOf w = .ok c) : catNotNum w = true ∧ c = trimCat w := by
  unfold categoryOf at h
  unfold catNotNum trimCat
  cases hc : w.category
  · rw [hc] at h
    exact ⟨rfl, (Except.ok.inj h).symm.trans pyStripStr_empty⟩
  · rw [hc] at h
    exact ⟨rfl, (Except.ok.inj h).symm.trans pyStripStr_empty⟩
  · rw [hc] at h
    exact ⟨rfl, (Except.ok.inj h).symm⟩
  · rw [hc] at h
    exact Except.noConfusion h

/-- On input with no numeric category cell, the grouping loop does not
raise and equals its total version. -/
theorem groupAux_eq_total (cheapest : RawRecord) (ws : List RawRecord) :
    ∀ acc : Groups, (∀ w ∈ ws, catNotNum w = true) →
      groupAux cheapest acc ws = .ok (groupTotal cheapest acc ws) := by
  induction ws with
  | nil => intro acc _; rfl
  | cons w rest ih =>
    intro acc h
    have hw : catNotNum w = true := h w (List.mem_cons_self w rest)
    have hrest : ∀ x ∈ rest, catNotNum x = true :=
      fun x hx => h x (List.mem_cons_of_mem w hx)
    unfold groupAux
    rw [categoryOf_eq_ok w hw]
    exact ih _ hrest

/-- A successful run of the grouping loop implies that no category cell
was numeric. -/
theorem groupAux_ok_catNotNum (cheapest : RawRecord) (ws : List RawRecord) :
    ∀ (acc g : Groups), groupAux cheapest acc ws = .ok g →
      ∀ w ∈ ws, catNotNum w = true := by
  induction ws with
  | nil => intro acc g _ w hw; cases hw
  | cons a rest ih =>
    intro acc g h w hw
    unfold groupAux at h
    cases hc : categoryOf a with
    | error e =>
      rw [hc] at h
      exact Except.noConfusion h
    | ok c =>
      rw [hc] at h
      rcases List.mem_cons.mp hw with hw | hw
      · rw [hw]
        exact (categoryOf_ok_inv a c hc).1
      · exact ih _ g h w hw

/-- Appending a row to a group keeps the key list unchanged when the key
exists and adds the key at the end otherwise. -/
theorem appendToGroup_keys (k : String) (w : ProcessedWine) :
    ∀ g : Groups, (appendToGroup g k w).map Prod.fst =
      if k ∈ g.map Prod.fst then g.map Prod.fst
      else g.map Prod.fst ++ [k] := by
  intro g
  induction g with
  | nil => simp [appendToGroup]
  | cons p rest ih =>
    obtain ⟨k', ws⟩ := p
    by_cases hk : k' = k
    · simp [appendToGroup, hk]
    · have hk2 : ¬ (k = k') := fun he => hk he.symm
      simp only [appendToGroup, if_neg hk, List.map_cons, List.mem_cons]
      rw [ih]
      by_cases hmem : k ∈ rest.map Prod.fst
      · simp [hmem, hk2]
      · simp [hmem, hk2]

/-- Appending a row to a group extends exactly that key's row list. -/
theorem groupsGet_append_self (k : String) (w : ProcessedWine) :
    ∀ g : Groups, groupsGet (appendToGroup g k w) k = groupsGet g k ++ [w] := by
  intro g
  induction g with
  | nil => simp [appendToGroup, groupsGet]
  | cons p rest ih =>
    obtain ⟨k', ws⟩ := p
    by_cases hk : k' = k
    · simp [appendToGroup, groupsGet, hk]
    · simp only [appendToGroup, if_neg hk, groupsGet, ih]

/-- Appending a row to a group leaves every other key's rows unchanged. -/
theorem groupsGet_append_other (k k' : String) (w : ProcessedWine)
    (hne : k' ≠ k) :
    ∀ g : Groups, groupsGet (appendToGroup g k w) k' = groupsGet g k' := by
  intro g
  induction g with
  | nil =>
    simp only [appendToGroup, groupsGet]
    rw [if_neg (fun he => hne he.symm)]
  | cons p rest ih =>
    obtain ⟨k0, ws⟩ := p
    by_cases hk : k0 = k
    · simp only [appendToGroup, if_pos hk, groupsGet]
      rw [if_neg (fun he : k0 = k' => hne (hk ▸ he ▸ rfl)),
        if_neg (fun he : k0 = k' => hne (hk ▸ he ▸ rfl))]
    · simp only [appendToGroup, if_neg hk, groupsGet, ih]

/-- Appending rows never creates an empty row list. -/
theorem appendToGroup_nonempty (k : String) (w : ProcessedWine) :
    ∀ g : Groups, (∀ p ∈ g, p.2 ≠ []) →
      ∀ p ∈ appendToGroup g k w, p.2 ≠ [] := by
  intro g
  induction g with
  | nil =>
    intro _ p hp
    rcases List.mem_cons.mp hp with hp | hp
    · rw [hp]; simp
    · cases hp
  | cons q rest ih =>
    obtain ⟨k', ws⟩ := q
    intro h p hp
    by_cases hk : k' = k
    · rw [appendToGroup, if_pos hk] at hp
      rcases List.mem_cons.mp hp with hp | hp
      · rw [hp]; simp
      · exact h p (List.mem_cons_of_mem _ hp)
    · rw [appendToGroup, if_neg hk] at hp
      rcases List.mem_cons.mp hp with hp | hp
      · rw [hp]
        exact h ⟨k', ws⟩ (List.mem_cons_self _ _)
      · exact ih (fun q hq => h q (List.mem_cons_of_mem _ hq)) p hp

/-- The first-seen key list depends on the already-seen keys only through
membership. -/
theorem seenKeys_congr (ws : List RawRecord) :
    ∀ s1 s2 : List String, (∀ x : String, x ∈ s1 ↔ x ∈ s2) →
      seenKeys s1 ws = seenKeys s2 ws := by
  induction ws with
  | nil => intro s1 s2 _; rfl
  | cons w rest ih =>
    intro s1 s2 h
    by_cases hc : trimCat w = "" ∨ trimCat w ∈ s1
    · have hc2 : trimCat w = "" ∨ trimCat w ∈ s2 := by
        rcases hc with hc | hc
        · exact Or.inl hc
        · exact Or.inr ((h _).mp hc)
      rw [seenKeys, if_pos hc, seenKeys, if_pos hc2]
      exact ih s1 s2 h
    · have hc2 : ¬ (trimCat w = "" ∨ trimCat w ∈ s2) := by
        rintro (h2 | h2)
        · exact hc (Or.inl h2)
        · exact hc (Or.inr ((h _).mpr h2))
      rw [seenKeys, if_neg hc, seenKeys, if_neg hc2]
      have hext : ∀ x : String,
          x ∈ trimCat w :: s1 ↔ x ∈ trimCat w :: s2 := by
        intro x
        simp [List.mem_cons, h x]
      rw [ih _ _ hext]

/-- Key list of the total grouping loop: the starting keys followed by
the unseen non-blank categories in first-seen order. -/
theorem groupTotal_keys (cheapest : RawRecord) (ws : List RawRecord) :
    ∀ acc : Groups, (groupTotal cheapest acc ws).map Prod.fst =
      acc.map Prod.fst ++ seenKeys (acc.map Prod.fst) ws := by
  induction ws with
  | nil => intro acc; simp [groupTotal, seenKeys]
  | cons w rest ih =>
    intro acc
    by_cases h0 : trimCat w = ""
    · rw [groupTotal, if_pos h0, seenKeys, if_pos (Or.inl h0)]
      exact ih acc
    · by_cases hmem : trimCat w ∈ acc.map Prod.fst
      · rw [groupTotal, if_neg h0, seenKeys, if_pos (Or.inr hmem)]
        rw [ih _, appendToGroup_keys, if_pos hmem]
      · rw [groupTotal, if_neg h0, seenKeys,
          if_neg (by rintro (h2 | h2); exact h0 h2; exact hmem h2)]
        rw [ih _, appendToGroup_keys, if_neg hmem]
        rw [seenKeys_congr rest (acc.map Prod.fst ++ [trimCat w])
          (trimCat w :: acc.map Prod.fst)
          (by intro x; simp [List.mem_append, List.mem_cons, or_comm])]
        simp

/-- Rows of the total grouping loop under a non-blank key: the starting
rows followed by the processed kept records of that category, in input
order. -/
theorem groupTotal_get (cheapest : RawRecord) (ws : List RawRecord) :
    ∀ (acc : Groups) (k : String), k ≠ "" →
      groupsGet (groupTotal cheapest acc ws) k =
        groupsGet acc k ++
          (ws.filter (fun w => trimCat w == k)).map
            (fun w => process_wine_data w cheapest) := by
  induction ws with
  | nil => intro acc k _; simp [groupTotal]
  | cons w rest ih =>
    intro acc k hk
    by_cases h0 : trimCat w = ""
    · rw [groupTotal, if_pos h0, List.filter_cons,
        if_neg (by simp [h0]; exact fun he => hk he.symm)]
      exact ih acc k hk
    · by_cases hwk : trimCat w = k
      · rw [groupTotal, if_neg h0, List.filter_cons, if_pos (by simp [hwk])]
        rw [ih _ k hk, hwk, groupsGet_append_self]
        simp
      · rw [groupTotal, if_neg h0, List.filter_cons, if_neg (by simp [hwk])]
        rw [ih _ k hk, groupsGet_append_other _ _ _ (fun he => hwk he.symm)]

/-- The total grouping loop never stores an empty row list. -/
theorem groupTotal_nonempty (cheapest : RawRecord) (ws : List RawRecord) :
    ∀ acc : Groups, (∀ p ∈ acc, p.2 ≠ []) →
      ∀ p ∈ groupTotal cheapest acc ws, p.2 ≠ [] := by
  induction ws with
  | nil => intro acc h p hp; exact h p hp
  | cons w rest ih =>
    intro acc h p hp
    by_cases h0 : trimCat w = ""
    · rw [groupTotal, if_pos h0] at hp
      exact ih acc h p hp
    · rw [groupTotal, if_neg h0] at hp
      exact ih _ (appendToGroup_nonempty _ _ acc h) p hp

/-- Every first-seen key is a non-blank stripped string. -/
theorem seenKeys_mem (ws : List RawRecord) :
    ∀ (seen : List String) (k : String), k ∈ seenKeys seen ws →
      k ≠ "" ∧ ∃ s : String, k = pyStripStr s := by
  induction ws with
  | nil => intro seen k hk; cases hk
  | cons w rest ih =>
    intro seen k hk
    by_cases hc : trimCat w = "" ∨ trimCat w ∈ seen
    · rw [seenKeys, if_pos hc] at hk
      exact ih seen k hk
    · rw [seenKeys, if_neg hc] at hk
      rcases List.mem_cons.mp hk with hk | hk
      · have hne : trimCat w ≠ "" := fun he => hc (Or.inl he)
        refine ⟨fun he => hne (hk.symm.trans he), ?_⟩
        obtain ⟨s, hs⟩ := trimCat_strip w
        exact ⟨s, hk.trans hs⟩
      · exact ih _ k hk

/-- The head of a `dropWhile` never satisfies the dropped predicate. -/
theorem head?_dropWhile_false (p : Char → Bool) :
    ∀ (l : List Char) (c : Char), (l.dropWhile p).head? = some c →
      p c = false := by
  intro l
  induction l with
  | nil => intro c hc; exact Option.noConfusion hc
  | cons a t ih =>
    intro c hc
    cases hp : p a
    · rw [List.dropWhile_cons_of_neg (by rw [hp]; exact Bool.false_ne_true)] at hc
      rw [← Option.some.inj hc]
      exact hp
    · rw [List.dropWhile_cons_of_pos (by rw [hp])] at hc
      exact ih c hc

/-- A non-vacuous `dropWhile` keeps the last element. -/
theorem getLast?_dropWhile_ne_nil (p : Char → Bool) :
    ∀ l : List Char, l.dropWhile p ≠ [] →
      (l.dropWhile p).getLast? = l.getLast? := by
  intro l
  induction l with
  | nil => intro h; exact absurd rfl h
  | cons a t ih =>
    intro h
    cases hp : p a
    · rw [List.dropWhile_cons_of_neg (by rw [hp]; exact Bool.false_ne_true)]
    · rw [List.dropWhile_cons_of_pos (by rw [hp])] at h ⊢
      have ht : t ≠ [] := by
        intro he
        rw [he] at h
        exact h rfl
      rw [ih h]
      cases t with
      | nil => exact absurd rfl ht
      | cons b u => rw [List.getLast?_cons_cons]

/-- The strip of any string has no leading and no trailing whitespace. -/
theorem pyStripStr_noEdgeWs (s : String) :
    noEdgeWs (pyStripStr s) = true := by
  unfold noEdgeWs pyStripStr
  rw [Bool.and_eq_true]
  constructor
  · show (match (stripChars s.data).head? with
      | some c => !wsChar c
      | Option.none => true) = true
    cases hh : (stripChars s.data).head? with
    | none => rfl
    | some c =>
      unfold stripChars at hh
      rw [List.head?_reverse] at hh
      have hne : ((s.data.dropWhile wsChar).reverse.dropWhile wsChar) ≠ [] := by
        intro he
        rw [he] at hh
        exact Option.noConfusion hh
      rw [getLast?_dropWhile_ne_nil wsChar _ hne, List.getLast?_reverse] at hh
      show (!wsChar c) = true
      rw [head?_dropWhile_false wsChar _ c hh]
      rfl
  · show (match (stripChars s.data).getLast? with
      | some c => !wsChar c
      | Option.none => true) = true
    cases hh : (stripChars s.data).getLast? with
    | none => rfl
    | some c =>
      unfold stripChars at hh
      rw [List.getLast?_reverse] at hh
      show (!wsChar c) = true
      rw [head?_dropWhile_false wsChar _ c hh]
      rfl

/-- The promotion flag of a processed record is the name-and-price
comparison. -/
theorem isPromotion_process (w c : RawRecord) :
    (process_wine_data w c).isPromotion = matchesB w c :=
  rfl

/-- Appending one row to a group adds its flag to the flagged count. -/
theorem countFlagged_append (k : String) (w : ProcessedWine) :
    ∀ g : Groups, countFlagged (appendToGroup g k w) =
      countFlagged g + (if w.isPromotion then 1 else 0) := by
  intro g
  induction g with
  | nil =>
    simp [countFlagged, appendToGroup, List.countP_cons, List.countP_nil]
  | cons p rest ih =>
    obtain ⟨k', ws⟩ := p
    by_cases hk : k' = k
    · rw [appendToGroup, if_pos hk]
      simp only [countFlagged, List.map_cons, List.sum_cons,
        List.countP_append, List.countP_cons, List.countP_nil] at ih ⊢
      omega
    · rw [appendToGroup, if_neg hk]
      simp only [countFlagged, List.map_cons, List.sum_cons] at ih ⊢
      omega

/-- Flagged count of the total grouping loop: the starting count plus the
number of kept records matching the cheapest record on both name and
price. -/
theorem countFlagged_groupTotal (cheapest : RawRecord) (ws : List RawRecord) :
    ∀ acc : Groups, countFlagged (groupTotal cheapest acc ws) =
      countFlagged acc +
        (ws.filter
          (fun w => (trimCat w != "") && matchesB w cheapest)).length := by
  induction ws with
  | nil => intro acc; simp [groupTotal]
  | cons w rest ih =>
    intro acc
    by_cases h0 : trimCat w = ""
    · rw [groupTotal, if_pos h0, List.filter_cons,
        if_neg (by simp [h0])]
      exact ih acc
    · rw [groupTotal, if_neg h0, List.filter_cons]
      rw [ih _, countFlagged_append, isPromotion_process]
      cases hm : matchesB w cheapest
      · rw [if_neg (by simp [hm])]
        simp
      · rw [if_pos (by simp [h0, hm])]
        rw [if_pos (show (trimCat w != "" && true) = true by simp [h0])]
        rw [List.length_cons]
        omega

/-- C3: on input with no numeric category cell, grouping succeeds; its
keys are exactly the non-blank trimmed categories in first-seen order,
and under every non-blank key stand exactly the processed records of
that trimmed category, in input order — so exactly the blank-trimmed
rows are excluded and no other row is dropped. -/
theorem group_wines_by_category_correct (wines : List RawRecord)
    (cheapest : RawRecord) (h : ∀ w ∈ wines, catNotNum w = true) :
    ∃ g : Groups, group_wines_by_category wines cheapest = .ok g ∧
      g.map Prod.fst = seenKeys [] wines ∧
      ∀ k, k ≠ "" →
        groupsGet g k =
          (wines.filter (fun w => trimCat w == k)).map
            (fun w => process_wine_data w cheapest) := by
  refine ⟨groupTotal cheapest [] wines, groupAux_eq_total cheapest wines [] h,
    ?_, ?_⟩
  · have hk := groupTotal_keys cheapest wines []
    simpa using hk
  · intro k hk
    have hg := groupTotal_get cheapest wines [] k hk
    rw [show groupsGet ([] : Groups) k = [] from rfl, List.nil_append] at hg
    exact hg

/-- C3 (witness): on the concrete rows with categories `"  "` and
`"Red "`, the blank-trimmed row is dropped, the other is kept under the
key `"Red"`, and the grouping theorem applies. -/
theorem group_wines_by_category_correct_witness :
    group_wines_by_category trimWines emptyRecord = .ok trimGroups ∧
    (∃ g : Groups, group_wines_by_category trimWines emptyRecord = .ok g ∧
      g.map Prod.fst = seenKeys [] trimWines ∧
      ∀ k, k ≠ "" →
        groupsGet g k =
          (trimWines.filter (fun w => trimCat w == k)).map
            (fun w => process_wine_data w emptyRecord)) :=
  ⟨rfl, group_wines_by_category_correct trimWines emptyRecord (by decide)⟩

/-- C9: every key of a successful grouping is a non-empty string with no
leading or trailing whitespace, and maps to a non-empty row list. -/
theorem group_keys_trimmed_nonempty (wines : List RawRecord)
    (cheapest : RawRecord) (g : Groups)
    (h : group_wines_by_category wines cheapest = .ok g) :
    ∀ p ∈ g, p.1 ≠ "" ∧ noEdgeWs p.1 = true ∧ p.2 ≠ [] := by
  have hcat : ∀ w ∈ wines, catNotNum w = true :=
    groupAux_ok_catNotNum cheapest wines [] g h
  have hg : g = groupTotal cheapest [] wines :=
    Except.ok.inj
      ((groupAux_eq_total cheapest wines [] hcat).symm.trans h).symm
  intro p hp
  have hkey : p.1 ∈ g.map Prod.fst := List.mem_map_of_mem Prod.fst hp
  rw [hg] at hkey
  rw [groupTotal_keys cheapest wines []] at hkey
  simp only [List.map_nil, List.nil_append] at hkey
  obtain ⟨hne, s, hs⟩ := seenKeys_mem wines [] p.1 hkey
  refine ⟨hne, ?_, ?_⟩
  · rw [hs]
    exact pyStripStr_noEdgeWs s
  · rw [hg] at hp
    exact groupTotal_nonempty cheapest wines [] (by intro q hq; cases hq) p hp

/-- C9 (witness): the keys invariant at the concrete `trimWines` input,
instantiated at the single entry of its grouped output. -/
theorem group_keys_trimmed_nonempty_witness :
    trimPair.1 ≠ "" ∧ noEdgeWs trimPair.1 = true ∧ trimPair.2 ≠ [] :=
  group_keys_trimmed_nonempty trimWines emptyRecord trimGroups rfl
    trimPair (List.mem_cons_self trimPair [])

/-- C8 (counterexample): two rows with the same name and the same
minimum price are both flagged — the pipeline output on `dupWines` has
two records with the promotion flag set, so more than one record across
all groups is flagged. -/
theorem duplicate_rows_both_flagged :
    pipeline dupWines = .ok dupGroups ∧ countFlagged dupGroups = 2 ∧
      1 < countFlagged dupGroups :=
  ⟨rfl, rfl, by decide⟩

/-- C8 (amended): the number of flagged records across all groups equals
the number of kept records whose name and price both Python-equal the
cheapest record's — so at most one record is flagged whenever at most
one kept record matches the cheapest on both name and price, and a
record never gets the flag through price alone. -/
theorem flagged_count_eq_matching (wines : List RawRecord)
    (cheapest : RawRecord) (g : Groups)
    (h : group_wines_by_category wines cheapest = .ok g) :
    countFlagged g =
      (wines.filter
        (fun w => (trimCat w != "") && matchesB w cheapest)).length := by
  have hcat : ∀ w ∈ wines, catNotNum w = true :=
    groupAux_ok_catNotNum cheapest wines [] g h
  have hg : g = groupTotal cheapest [] wines :=
    Except.ok.inj
      ((groupAux_eq_total cheapest wines [] hcat).symm.trans h).symm
  rw [hg, countFlagged_groupTotal]
  simp [countFlagged]

/-- C8 (witness): on the A/B/C scenario grouped against cheapest record
B, exactly one record (B itself) is flagged. -/
theorem flagged_count_eq_matching_witness :
    countFlagged abcGroups =
      (abcWines.filter
        (fun w => (trimCat w != "") && matchesB w wineB)).length :=
  flagged_count_eq_matching abcWines wineB abcGroups rfl

end WineStore
